import Mathlib

/-
Verification of the counting-and-merging pipeline of `main_trainer.py`
(EquinetPaul/ngram_nlp).

The frequency table of an `Ngram` object (`chain_frequency`) is a Python
dict mapping a context (tuple of token ids) to a dict mapping next-id to a
count.  Python dicts are modelled as association lists in insertion order:
`d[k] = v` updates the first binding of `k` in place when present and
appends a fresh binding at the end otherwise, which is exactly what `aset`
below does; lookup returns the first binding, the dict invariant is that
keys never repeat (`NodupKeys`).
-/

namespace NgramTrainer

/-- First-binding lookup in an association list, `k in d` / `d[k]`. -/
def alookup {α β : Type} [DecidableEq α] : List (α × β) → α → Option β
  | [], _ => none
  | (k, v) :: t, x => if x = k then some v else alookup t x

/-- Python dict assignment `d[k] = v`: update the first binding of `k` in
place when present, append a fresh binding otherwise. -/
def aset {α β : Type} [DecidableEq α] : List (α × β) → α → β → List (α × β)
  | [], k, v => [(k, v)]
  | (k0, v0) :: t, k, v => if k = k0 then (k, v) :: t else (k0, v0) :: aset t k v

/-- The dict invariant: no key is bound twice. -/
def NodupKeys {α β : Type} (m : List (α × β)) : Prop := (m.map Prod.fst).Nodup

instance {α β : Type} [DecidableEq α] (m : List (α × β)) : Decidable (NodupKeys m) :=
  inferInstanceAs (Decidable ((m.map Prod.fst).Nodup))

/-- A context key of `chain_frequency`: a tuple of token ids. -/
abbrev Ctx := List Nat

/-- An inner dict of `chain_frequency`: next-id to count. -/
abbrev Inner := List (Nat × Nat)

/-- The `chain_frequency` member of an `Ngram` object: context to inner dict. -/
abbrev Freq := List (Ctx × Inner)

/-- Count stored for next-id `i`, taking 0 where absent. -/
def cnt (m : Inner) (i : Nat) : Nat := (alookup m i).getD 0

/-- Whether next-id `i` is present in an inner dict. -/
def hasK (m : Inner) (i : Nat) : Bool := (alookup m i).isSome

/-- Body of the inner loop of `merge_grams` (main_trainer.py lines
119-123): add the count of one `gram2` sub-entry into `gram1`'s inner dict,
inserting the sub-key when absent. -/
def innerStep (acc : Inner) (p : Nat × Nat) : Inner :=
  match alookup acc p.1 with
  | none => aset acc p.1 p.2
  | some old => aset acc p.1 (old + p.2)

/-- Inner loop of `merge_grams`: fold every entry of
`gram2.chain_frequency[key]` into `gram1.chain_frequency[key]`. -/
def mergeInner (m1 m2 : Inner) : Inner := m2.foldl innerStep m1

/-- Body of the outer loop of `merge_grams` (main_trainer.py lines
115-123): for one context of `gram2`, adopt its inner dict when the context
is absent from `gram1`, otherwise fold it into `gram1`'s inner dict. -/
def freqStep (acc : Freq) (p : Ctx × Inner) : Freq :=
  match alookup acc p.1 with
  | none => aset acc p.1 p.2
  | some inner => aset acc p.1 (mergeInner inner p.2)

/-- Embedding of `merge_grams(gram1, gram2)` (main_trainer.py lines
114-124): fold every context of `gram2` into `gram1`; the mutated `gram1`
is returned, modelled here as a value. -/
def merge_grams (g1 g2 : Freq) : Freq := g2.foldl freqStep g1

/-- Count of a (context, next) transition in a table, 0 where absent. -/
def countF (g : Freq) (k : Ctx) (i : Nat) : Nat :=
  match alookup g k with
  | none => 0
  | some m => cnt m i

/-- Whether a context is present in a table. -/
def hasCtx (g : Freq) (k : Ctx) : Bool := (alookup g k).isSome

/-- Whether a (context, next) entry is present in a table. -/
def hasEntry (g : Freq) (k : Ctx) (i : Nat) : Bool :=
  match alookup g k with
  | none => false
  | some m => hasK m i

/-- Well-formedness of a table as a Python nested dict: outer keys and every
inner dict's keys are duplicate free. -/
def WF (g : Freq) : Prop := NodupKeys g ∧ ∀ p ∈ g, NodupKeys p.2

instance (g : Freq) : Decidable (WF g) := by
  unfold WF; infer_instance

/-- Full content equality of two tables: same contexts, same entries, same
counts. -/
def ceq (a b : Freq) : Prop :=
  (∀ k, hasCtx a k = hasCtx b k)
  ∧ (∀ k i, hasEntry a k i = hasEntry b k i)
  ∧ (∀ k i, countF a k i = countF b k i)

/-- Modelled from the spec: `ngram.Ngram()` (module `ngram` is not part of
the observed source) constructs a table whose `chain_frequency` is a fresh
empty dict; `main` starts its per-order merge fold from such a table. -/
def emptyFreq : Freq := []

/-- One round of `merge_models_incrementally` (main_trainer.py lines
131-141): merge adjacent pairs, carrying an unpaired leftover forward. -/
def mergeRound : List Freq → List Freq
  | a :: b :: t => merge_grams a b :: mergeRound t
  | [a] => [a]
  | [] => []

/-- The `while len(models_to_merge) > 1` loop of
`merge_models_incrementally`, with a structural fuel argument; each round
with at least two tables strictly shrinks the list, so fuel equal to the
initial length is enough for the loop to reach a single table. -/
def mergeLoopAux : Nat → List Freq → List Freq
  | 0, ms => ms
  | fuel + 1, ms => if ms.length ≤ 1 then ms else mergeLoopAux fuel (mergeRound ms)

/-- Embedding of `merge_models_incrementally(models_to_merge)`
(main_trainer.py lines 126-143): repeat `mergeRound` until at most one
table remains and return `models_to_merge[0]` (`none` models the
IndexError on an empty input). -/
def merge_models_incrementally (ms : List Freq) : Option Freq :=
  (mergeLoopAux ms.length ms).head?

/-- The merge loop of `main` (main_trainer.py lines 237-241): fold each
pending staged file into the accumulator with `merge_grams` and delete it
from the staging area (`os.remove(model_path)`) as soon as it is folded in.
Staged files carry a unique identifier modelling their uuid filename. -/
def mergePhase (acc : Freq) : List (Nat × Freq) → List (Nat × Freq) → Freq × List (Nat × Freq)
  | [], temp => (acc, temp)
  | (fid, m) :: rest, temp =>
      mergePhase (merge_grams acc m) rest (temp.filter (fun p => !(p.1 == fid)))

/-- Sum of the counts of a (context, next) transition over a list of tables. -/
def totalCount (l : List Freq) (k : Ctx) (i : Nat) : Nat :=
  (l.map (fun g => countF g k i)).sum

/-- Whether a context is present in some table of a list. -/
def anyCtx (l : List Freq) (k : Ctx) : Bool := l.any (fun g => hasCtx g k)

/-- Whether a (context, next) entry is present in some table of a list. -/
def anyEntry (l : List Freq) (k : Ctx) (i : Nat) : Bool :=
  l.any (fun g => hasEntry g k i)

/-
Strings.  Python strings are modelled as lists of characters.
-/

/-- The ASCII whitespace characters stripped by Python `str.strip()`. -/
def pySpace (c : Char) : Bool :=
  c = ' ' || c = '\t' || c = '\n' || c = '\r' || c = '\x0b' || c = '\x0c'

/-- Python `text.strip()`: drop leading and trailing whitespace. -/
def pyStrip (s : List Char) : List Char :=
  ((s.dropWhile pySpace).reverse.dropWhile pySpace).reverse

/-- Whether `pat` is a prefix of `s`. -/
def matchesHere : List Char → List Char → Bool
  | [], _ => true
  | _ :: _, [] => false
  | p :: ps, c :: cs => p = c && matchesHere ps cs

/-- Left-to-right non-overlapping substring replacement, with a structural
fuel argument; every step consumes at least one character of `s`, so fuel
equal to the length of `s` is enough. -/
def strReplaceAux : Nat → List Char → List Char → List Char → List Char
  | 0, s, _, _ => s
  | fuel + 1, s, pat, rep =>
      match s with
      | [] => []
      | c :: rest =>
          if matchesHere pat s then rep ++ strReplaceAux fuel (s.drop pat.length) pat rep
          else c :: strReplaceAux fuel rest pat rep

/-- Python `text.replace(old, new)` for a non-empty `old` (the source only
calls it with the one-character pattern `"\n"`; an empty pattern is never
used and is returned unchanged here). -/
def strReplace (s pat rep : List Char) : List Char :=
  if pat.isEmpty then s else strReplaceAux s.length s pat rep

/-- The character substitution a single-character replace performs. -/
def substNl (c : Char) : Char := if c = '\n' then ' ' else c

/-- Embedding of `preprocessing(text)` (main_trainer.py lines 145-149):
strip, then replace newlines by spaces; the third source line computes
`" ".join(text.split())` and discards its result, so it has no effect on
the returned value. -/
def preprocessing (text : List Char) : List Char :=
  let t1 := pyStrip text
  let t2 := strReplace t1 ['\n'] [' ']
  t2

/-- A raw document. -/
abbrev Doc := List Char

/-- A token. -/
abbrev Token := List Char

/-- Modelled from the spec: a Vocabulary assigns dense ids in
first-occurrence order, so it is the list of tokens indexed by id
(`vocabulary.Vocabulary` is not part of the observed source). -/
abbrev Vocab := List Token

/-- Whitespace tokenizer: accumulate the current word in reverse and emit it
at each whitespace run boundary. -/
def splitAux : List Char → List Char → List Token
  | [], acc => if acc.isEmpty then [] else [acc.reverse]
  | c :: rest, acc =>
      if pySpace c then
        if acc.isEmpty then splitAux rest [] else acc.reverse :: splitAux rest []
      else splitAux rest (c :: acc)

/-- Modelled from the spec: the tokenization rule is whitespace splitting. -/
def tokenize (s : Doc) : List Token := splitAux s []

/-- Modelled from the spec: `vocab.update(text)` assigns a new id to each
first-seen token, insertion order defining id order. -/
def vocabUpdate (v : Vocab) (d : Doc) : Vocab :=
  (tokenize d).foldl (fun v t => if t ∈ v then v else v ++ [t]) v

/-- Modelled from the spec: building the vocabulary scans every document
once, in corpus order (`load_or_create_vocabulary`, main_trainer.py lines
93-97, with `vocab.update` supplied by the unobserved `vocabulary` module). -/
def buildVocab (docs : List Doc) : Vocab := docs.foldl vocabUpdate []

/-
Orchestration model of `main` (main_trainer.py lines 152-258).
-/

/-- The three execution modes of `main`: single CPU, local joblib pool,
dask distributed cluster. -/
inductive Mode
  | seqMode
  | parMode
  | distMode

/-- Python runtime errors relevant to the orchestration. -/
inductive PyErr
  | typeErr
  | nameErr
  | taskErr

/-- A positional argument of a dispatched `train_ngram` call. -/
inductive CallArg
  | orderArg (n : Nat)
  | docArg (d : Doc)
  | vocabArg (v : Vocab)

/-- The per-run mutable environment of `main`: the `vocab` and `data`
variables (`none` once `del`eted), the staging directory `data/temp`
(unique file id paired with content), a counter producing fresh uuid file
ids, and the persisted per-order final models `data/ngram/<name>/<n>`. -/
structure RunState where
  vocab : Option Vocab
  data : Option (List Doc)
  temp : List (Nat × Freq)
  nextId : Nat
  saved : List (Nat × Freq)

/-- The argument lists `main` passes to `train_ngram`, one call per
document: `train_ngram(n, str(text), vocab)` on the single-CPU path (line
199) and the joblib path (line 195), but
`delayed(train_ngram)(text, distributed_vocab)` — without the order `n` —
on the dask path (line 213). -/
def shardCalls (mode : Mode) (n : Nat) (docs : List Doc) (v : Vocab) : List (List CallArg) :=
  match mode with
  | .seqMode => docs.map (fun d => [.orderArg n, .docArg d, .vocabArg v])
  | .parMode => docs.map (fun d => [.orderArg n, .docArg d, .vocabArg v])
  | .distMode => docs.map (fun d => [.docArg d, .vocabArg v])

/-- Calling `def train_ngram(n, text, vocab)` (main_trainer.py lines
106-112): the three positional parameters must all be supplied, any other
argument list raises TypeError before the body runs.  The body itself
(encode the text and train one `Ngram`, both in the unobserved `ngram` and
`vocabulary` modules) is the supplied `trainF` and yields the staged table. -/
def runTrainNgram (trainF : Nat → Doc → Vocab → Except PyErr Freq) :
    List CallArg → Except PyErr Freq
  | [.orderArg n, .docArg d, .vocabArg v] => trainF n d v
  | _ => .error .typeErr

/-- Single-CPU task execution (the list comprehension on line 199): run the
calls left to right, stage each produced table, and stop at the first
exception, which propagates. -/
def runSeqTasks (trainF : Nat → Doc → Vocab → Except PyErr Freq) :
    List (List CallArg) → List Freq × Option PyErr
  | [] => ([], none)
  | c :: t =>
      match runTrainNgram trainF c with
      | .error e => ([], some e)
      | .ok f =>
          let r := runSeqTasks trainF t
          (f :: r.1, r.2)

/-- All task results of a call list. -/
def taskResults (trainF : Nat → Doc → Vocab → Except PyErr Freq)
    (calls : List (List CallArg)) : List (Except PyErr Freq) :=
  calls.map (runTrainNgram trainF)

/-- The successfully produced tables among a list of task results. -/
def oks : List (Except PyErr Freq) → List Freq
  | [] => []
  | .ok f :: t => f :: oks t
  | .error _ :: t => oks t

/-- The first error among a list of task results, if any. -/
def firstErr : List (Except PyErr Freq) → Option PyErr
  | [] => none
  | .ok _ :: t => firstErr t
  | .error e :: _ => some e

/-- Task execution per mode: the staged tables and the error the
orchestrator observes.  Single CPU stops at the first exception; the joblib
pool (`Parallel`, line 195) runs the tasks and re-raises the first worker
exception; the dask path (lines 213-217) computes the futures, displays
their progress and never gathers them, so the orchestrator observes no
error no matter how many tasks failed. -/
def runTasks (mode : Mode) (trainF : Nat → Doc → Vocab → Except PyErr Freq)
    (calls : List (List CallArg)) : List Freq × Option PyErr :=
  match mode with
  | .seqMode => runSeqTasks trainF calls
  | .parMode => (oks (taskResults trainF calls), firstErr (taskResults trainF calls))
  | .distMode => (oks (taskResults trainF calls), none)

/-- Pair freshly produced tables with fresh staging file ids (the uuid
filenames of `train_ngram`, line 111-112). -/
def withIds (start : Nat) : List Freq → List (Nat × Freq)
  | [] => []
  | f :: t => (start, f) :: withIds (start + 1) t

/-- One iteration of the `for n in range(ngram_min, ngram_max+1)` loop of
`main` (main_trainer.py lines 184-255): clear stale staging (line 185),
train every document (lines 189-217, raising NameError when `data` or
`vocab` was `del`eted by a previous iteration), then on success `del vocab`
and `del data` (lines 223-224), clear the order's output location (line
230), fold the staged partials into a fresh table deleting each once folded
(lines 236-241), persist the result (line 247) and clear staging (line
255).  Returns the state reached and the error that aborted the iteration,
if any. -/
def orderStep (trainF : Nat → Doc → Vocab → Except PyErr Freq) (mode : Mode)
    (n : Nat) (s : RunState) : RunState × Option PyErr :=
  let s0 : RunState := { s with temp := [] }
  match s0.data, s0.vocab with
  | none, _ => (s0, some .nameErr)
  | some _, none => (s0, some .nameErr)
  | some docs, some v =>
      let calls := shardCalls mode n docs v
      let r := runTasks mode trainF calls
      let s1 : RunState :=
        { s0 with temp := withIds s0.nextId r.1, nextId := s0.nextId + r.1.length }
      match r.2 with
      | some e => (s1, some e)
      | none =>
          let s2 : RunState := { s1 with vocab := none, data := none }
          let pr := mergePhase emptyFreq s2.temp s2.temp
          ({ s2 with
              temp := [],
              saved := (s2.saved.filter (fun p => !(p.1 == n))) ++ [(n, pr.1)] }, none)

/-- The order loop of `main`: run `orderStep` for each order in turn,
stopping at the first uncaught exception (which kills the process, leaving
the on-disk state as it was at that point). -/
def mainLoop (trainF : Nat → Doc → Vocab → Except PyErr Freq) (mode : Mode) :
    List Nat → RunState → RunState × Option PyErr
  | [], s => (s, none)
  | n :: rest, s =>
      let r := orderStep trainF mode n s
      match r.2 with
      | some e => (r.1, some e)
      | none => mainLoop trainF mode rest r.1

/-- The order range `range(ngram_min, ngram_max+1)` (line 184). -/
def orderRange (nmin nmax : Nat) : List Nat :=
  (List.range (nmax + 1 - nmin)).map (fun j => j + nmin)

/-- The start of `main` (lines 158-166): preprocess every document, then
build (or load) the vocabulary from the preprocessed corpus; staging starts
empty and nothing is persisted yet. -/
def mainPrepare (raw : List Doc) : RunState :=
  let docs := raw.map preprocessing
  { vocab := some (buildVocab docs),
    data := some docs,
    temp := [],
    nextId := 0,
    saved := [] }

/-- The whole training run of `main` for a configured order range. -/
def mainRun (trainF : Nat → Doc → Vocab → Except PyErr Freq) (mode : Mode)
    (raw : List Doc) (nmin nmax : Nat) : RunState × Option PyErr :=
  mainLoop trainF mode (orderRange nmin nmax) (mainPrepare raw)

/-- A shard trainer body that always succeeds and stages the same small
table, used to exercise the orchestration on concrete inputs. -/
def trainF0 : Nat → Doc → Vocab → Except PyErr Freq :=
  fun _ _ _ => .ok [([0], [(1, 1)])]

/-- A small concrete frequency table for witnesses. -/
def Ta : Freq := [([0], [(1, 2)])]

/-- A second concrete frequency table for witnesses. -/
def Tb : Freq := [([0], [(1, 3), (2, 1)]), ([5], [(0, 4)])]

/-- A third concrete frequency table for witnesses. -/
def Tc : Freq := [([5], [(0, 1), (7, 2)])]

/-- A concrete run state with a stale staged file, for witnesses. -/
def stC7a : RunState :=
  { vocab := some [['a']], data := some [['a']], temp := [(5, [])], nextId := 0, saved := [] }

/-- The state `orderStep` reaches from `stC7a` with `trainF0` on the
single-CPU path at order 1. -/
def stC7b : RunState :=
  { vocab := none, data := none, temp := [], nextId := 1,
    saved := [(1, [([0], [(1, 1)])])] }

/-
Association-list (Python dict) lemmas.
-/

theorem alookup_aset {α β : Type} [DecidableEq α] (m : List (α × β)) (k : α) (v : β)
    (x : α) : alookup (aset m k v) x = if x = k then some v else alookup m x := by
  induction m with
  | nil => simp [aset, alookup]
  | cons p t ih =>
      obtain ⟨k0, v0⟩ := p
      by_cases hk : k = k0
      · subst hk
        by_cases hx : x = k <;> simp [aset, alookup, hx]
      · by_cases hx : x = k0
        · subst hx
          simp [aset, alookup, hk, Ne.symm hk]
        · by_cases hxk : x = k
          · subst hxk; simp [aset, alookup, hk, hx, ih]
          · simp [aset, alookup, hk, hx, hxk, ih]

theorem alookup_none_iff {α β : Type} [DecidableEq α] (m : List (α × β)) (k : α) :
    alookup m k = none ↔ k ∉ m.map Prod.fst := by
  induction m with
  | nil => simp [alookup]
  | cons p t ih =>
      obtain ⟨k0, v0⟩ := p
      by_cases hx : k = k0 <;> simp [alookup, hx, ih]

theorem alookup_mem {α β : Type} [DecidableEq α] (m : List (α × β)) (k : α) (w : β)
    (h : alookup m k = some w) : (k, w) ∈ m := by
  induction m with
  | nil => simp [alookup] at h
  | cons p t ih =>
      obtain ⟨k0, v0⟩ := p
      by_cases hx : k = k0
      · subst hx
        simp [alookup] at h
        simp [h]
      · simp [alookup, hx] at h
        exact List.mem_cons_of_mem _ (ih h)

theorem aset_of_absent {α β : Type} [DecidableEq α] (m : List (α × β)) (k : α) (v : β)
    (h : alookup m k = none) : aset m k v = m ++ [(k, v)] := by
  induction m with
  | nil => simp [aset]
  | cons p t ih =>
      obtain ⟨k0, v0⟩ := p
      by_cases hx : k = k0
      · subst hx; simp [alookup] at h
      · simp [alookup, hx] at h
        simp [aset, hx, ih h]

theorem keys_aset_of_present {α β : Type} [DecidableEq α] (m : List (α × β)) (k : α)
    (v : β) (h : (alookup m k).isSome) :
    (aset m k v).map Prod.fst = m.map Prod.fst := by
  induction m with
  | nil => simp [alookup] at h
  | cons p t ih =>
      obtain ⟨k0, v0⟩ := p
      by_cases hx : k = k0
      · subst hx; simp [aset]
      · simp [alookup, hx] at h
        simp [aset, hx, ih h]

theorem nodup_aset {α β : Type} [DecidableEq α] (m : List (α × β)) (k : α) (v : β)
    (h : NodupKeys m) : NodupKeys (aset m k v) := by
  rcases ho : alookup m k with _ | w
  · rw [aset_of_absent m k v ho]
    unfold NodupKeys at h ⊢
    simp only [List.map_append, List.map_cons, List.map_nil]
    rw [List.nodup_append]
    refine ⟨h, List.nodup_singleton _, ?_⟩
    intro x hx hy
    simp at hy
    subst hy
    exact (alookup_none_iff m x).mp ho hx
  · unfold NodupKeys at h ⊢
    rw [keys_aset_of_present m k v (by simp [ho])]
    exact h

theorem mem_aset {α β : Type} [DecidableEq α] (m : List (α × β)) (k : α) (v : β)
    (p : α × β) (h : p ∈ aset m k v) : p = (k, v) ∨ p ∈ m := by
  induction m with
  | nil => simp [aset] at h; simp [h]
  | cons q t ih =>
      obtain ⟨k0, v0⟩ := q
      by_cases hx : k = k0
      · subst hx
        simp [aset] at h
        rcases h with h | h
        · exact Or.inl h
        · exact Or.inr (List.mem_cons_of_mem _ h)
      · simp [aset, hx] at h
        rcases h with h | h
        · exact Or.inr (by simp [h])
        · rcases ih h with h1 | h1
          · exact Or.inl h1
          · exact Or.inr (List.mem_cons_of_mem _ h1)

/-
Inner-dict lemmas: one `innerStep`, then the whole `mergeInner` fold.
-/

theorem cnt_innerStep (m : Inner) (p : Nat × Nat) (i : Nat) :
    cnt (innerStep m p) i = if i = p.1 then cnt m p.1 + p.2 else cnt m i := by
  obtain ⟨sk, sv⟩ := p
  by_cases hx : i = sk <;>
    rcases ho : alookup m sk with _ | old <;>
      simp [innerStep, cnt, ho, alookup_aset, hx]

theorem hasK_innerStep (m : Inner) (p : Nat × Nat) (i : Nat) :
    hasK (innerStep m p) i = if i = p.1 then true else hasK m i := by
  obtain ⟨sk, sv⟩ := p
  by_cases hx : i = sk <;>
    rcases ho : alookup m sk with _ | old <;>
      simp [innerStep, hasK, ho, alookup_aset, hx]

theorem nodup_innerStep (m : Inner) (p : Nat × Nat) (h : NodupKeys m) :
    NodupKeys (innerStep m p) := by
  rcases ho : alookup m p.1 with _ | old <;>
    simp [innerStep, ho] <;> exact nodup_aset _ _ _ h

theorem cnt_mergeInner (m2 m1 : Inner) (i : Nat) (h2 : NodupKeys m2) :
    cnt (mergeInner m1 m2) i = cnt m1 i + cnt m2 i := by
  induction m2 generalizing m1 with
  | nil => simp [mergeInner, cnt, alookup]
  | cons p t ih =>
      obtain ⟨sk, sv⟩ := p
      have h2c : sk ∉ t.map Prod.fst ∧ NodupKeys t := by
        unfold NodupKeys at h2 ⊢
        simpa using h2
      have hstep : mergeInner m1 ((sk, sv) :: t) = mergeInner (innerStep m1 (sk, sv)) t := rfl
      rw [hstep, ih _ h2c.2, cnt_innerStep]
      by_cases hx : i = sk
      · subst hx
        have ht : alookup t i = none := (alookup_none_iff t i).mpr h2c.1
        simp [cnt, alookup, ht]
      · simp [cnt, alookup, hx]

theorem hasK_mergeInner (m2 m1 : Inner) (i : Nat) :
    hasK (mergeInner m1 m2) i = (hasK m1 i || hasK m2 i) := by
  induction m2 generalizing m1 with
  | nil => simp [mergeInner, hasK, alookup]
  | cons p t ih =>
      obtain ⟨sk, sv⟩ := p
      have hstep : mergeInner m1 ((sk, sv) :: t) = mergeInner (innerStep m1 (sk, sv)) t := rfl
      rw [hstep, ih, hasK_innerStep]
      by_cases hx : i = sk
      · subst hx; simp [hasK, alookup]
      · simp [hasK, alookup, hx]

theorem nodup_mergeInner (m2 m1 : Inner) (h : NodupKeys m1) :
    NodupKeys (mergeInner m1 m2) := by
  induction m2 generalizing m1 with
  | nil => exact h
  | cons p t ih => exact ih _ (nodup_innerStep m1 p h)

/-
Outer-dict lemmas: one `freqStep`, then the whole `merge_grams` fold.
-/

theorem countF_freqStep (g : Freq) (p : Ctx × Inner) (x : Ctx) (i : Nat)
    (hp : NodupKeys p.2) :
    countF (freqStep g p) x i
      = if x = p.1 then countF g p.1 i + cnt p.2 i else countF g x i := by
  obtain ⟨k, v⟩ := p
  rcases ho : alookup g k with _ | w
  · by_cases hx : x = k <;>
      simp [freqStep, countF, ho, alookup_aset, hx, cnt]
  · by_cases hx : x = k
    · subst hx
      simp [freqStep, countF, ho, alookup_aset, cnt_mergeInner v w i hp]
    · simp [freqStep, countF, ho, alookup_aset, hx]

theorem hasCtx_freqStep (g : Freq) (p : Ctx × Inner) (x : Ctx) :
    hasCtx (freqStep g p) x = if x = p.1 then true else hasCtx g x := by
  obtain ⟨k, v⟩ := p
  rcases ho : alookup g k with _ | w <;>
    by_cases hx : x = k <;>
      simp [freqStep, hasCtx, ho, alookup_aset, hx]

theorem hasEntry_freqStep (g : Freq) (p : Ctx × Inner) (x : Ctx) (i : Nat) :
    hasEntry (freqStep g p) x i
      = if x = p.1 then (hasEntry g p.1 i || hasK p.2 i) else hasEntry g x i := by
  obtain ⟨k, v⟩ := p
  rcases ho : alookup g k with _ | w
  · by_cases hx : x = k <;>
      simp [freqStep, hasEntry, ho, alookup_aset, hx, hasK]
  · by_cases hx : x = k
    · subst hx
      simp [freqStep, hasEntry, ho, alookup_aset, hasK_mergeInner v w i]
    · simp [freqStep, hasEntry, ho, alookup_aset, hx]

theorem WF_freqStep (g : Freq) (p : Ctx × Inner) (hg : WF g) (hp : NodupKeys p.2) :
    WF (freqStep g p) := by
  obtain ⟨k, v⟩ := p
  constructor
  · rcases ho : alookup g k with _ | inner <;>
      simp [freqStep, ho] <;> exact nodup_aset _ _ _ hg.1
  · intro q hq
    rcases ho : alookup g k with _ | inner
    · simp [freqStep, ho] at hq
      rcases mem_aset _ _ _ _ hq with h1 | h1
      · rw [h1]; exact hp
      · exact hg.2 q h1
    · simp [freqStep, ho] at hq
      rcases mem_aset _ _ _ _ hq with h1 | h1
      · rw [h1]
        exact nodup_mergeInner v inner (hg.2 (k, inner) (alookup_mem g k inner ho))
      · exact hg.2 q h1

theorem WF_tail (p : Ctx × Inner) (t : Freq) (h : WF (p :: t)) :
    (p.1 ∉ t.map Prod.fst ∧ NodupKeys p.2) ∧ WF t := by
  obtain ⟨k, v⟩ := p
  have h1 : k ∉ t.map Prod.fst ∧ (t.map Prod.fst).Nodup := by
    have := h.1
    unfold NodupKeys at this
    simpa using this
  exact ⟨⟨h1.1, h.2 (k, v) (List.mem_cons_self _ _)⟩,
    ⟨h1.2, fun q hq => h.2 q (List.mem_cons_of_mem _ hq)⟩⟩

theorem countF_merge (b a : Freq) (x : Ctx) (i : Nat) (hb : WF b) :
    countF (merge_grams a b) x i = countF a x i + countF b x i := by
  induction b generalizing a with
  | nil => simp [merge_grams, countF, alookup]
  | cons p t ih =>
      obtain ⟨k, v⟩ := p
      obtain ⟨⟨hk, hv⟩, ht⟩ := WF_tail (k, v) t hb
      have hstep : merge_grams a ((k, v) :: t) = merge_grams (freqStep a (k, v)) t := rfl
      rw [hstep, ih _ ht, countF_freqStep _ _ _ _ hv]
      by_cases hx : x = k
      · subst hx
        have h0 : alookup t x = none := (alookup_none_iff t x).mpr hk
        simp [countF, alookup, h0]
      · simp [countF, alookup, hx]

theorem hasCtx_merge (b a : Freq) (x : Ctx) :
    hasCtx (merge_grams a b) x = (hasCtx a x || hasCtx b x) := by
  induction b generalizing a with
  | nil => simp [merge_grams, hasCtx, alookup]
  | cons p t ih =>
      obtain ⟨k, v⟩ := p
      have hstep : merge_grams a ((k, v) :: t) = merge_grams (freqStep a (k, v)) t := rfl
      rw [hstep, ih, hasCtx_freqStep]
      by_cases hx : x = k
      · subst hx; simp [hasCtx, alookup]
      · simp [hasCtx, alookup, hx]

theorem hasEntry_merge (b a : Freq) (x : Ctx) (i : Nat) (hb : NodupKeys b) :
    hasEntry (merge_grams a b) x i = (hasEntry a x i || hasEntry b x i) := by
  induction b generalizing a with
  | nil => simp [merge_grams, hasEntry, alookup]
  | cons p t ih =>
      obtain ⟨k, v⟩ := p
      have hk : k ∉ t.map Prod.fst ∧ NodupKeys t := by
        unfold NodupKeys at hb ⊢
        simpa using hb
      have hstep : merge_grams a ((k, v) :: t) = merge_grams (freqStep a (k, v)) t := rfl
      rw [hstep, ih _ hk.2, hasEntry_freqStep]
      by_cases hx : x = k
      · subst hx
        have h0 : alookup t x = none := (alookup_none_iff t x).mpr hk.1
        simp [hasEntry, alookup, h0]
      · simp [hasEntry, alookup, hx]

theorem WF_merge (b a : Freq) (ha : WF a) (hb : WF b) : WF (merge_grams a b) := by
  induction b generalizing a with
  | nil => exact ha
  | cons p t ih =>
      obtain ⟨⟨hk, hv⟩, ht⟩ := WF_tail p t hb
      exact ih _ (WF_freqStep a p ha hv) ht

/-
Folding a list of tables with `merge_grams`, as the merge loop of `main`
does over the staged partials.
-/

theorem countF_foldl (ms : List Freq) (acc : Freq) (x : Ctx) (i : Nat)
    (h : ∀ T ∈ ms, WF T) :
    countF (ms.foldl merge_grams acc) x i = countF acc x i + totalCount ms x i := by
  induction ms generalizing acc with
  | nil => simp [totalCount]
  | cons T t ih =>
      rw [List.foldl_cons, ih _ (fun q hq => h q (List.mem_cons_of_mem _ hq)),
        countF_merge T acc x i (h T (List.mem_cons_self _ _))]
      simp [totalCount]
      omega

theorem hasCtx_foldl (ms : List Freq) (acc : Freq) (x : Ctx) :
    hasCtx (ms.foldl merge_grams acc) x = (hasCtx acc x || anyCtx ms x) := by
  induction ms generalizing acc with
  | nil => simp [anyCtx]
  | cons T t ih =>
      rw [List.foldl_cons, ih, hasCtx_merge]
      simp [anyCtx, Bool.or_assoc]

theorem hasEntry_foldl (ms : List Freq) (acc : Freq) (x : Ctx) (i : Nat)
    (h : ∀ T ∈ ms, WF T) :
    hasEntry (ms.foldl merge_grams acc) x i = (hasEntry acc x i || anyEntry ms x i) := by
  induction ms generalizing acc with
  | nil => simp [anyEntry]
  | cons T t ih =>
      rw [List.foldl_cons, ih _ (fun q hq => h q (List.mem_cons_of_mem _ hq)),
        hasEntry_merge T acc x i (h T (List.mem_cons_self _ _)).1]
      simp [anyEntry, Bool.or_assoc]

theorem WF_foldl (ms : List Freq) (acc : Freq) (hacc : WF acc)
    (h : ∀ T ∈ ms, WF T) : WF (ms.foldl merge_grams acc) := by
  induction ms generalizing acc with
  | nil => exact hacc
  | cons T t ih =>
      exact ih _ (WF_merge T acc hacc (h T (List.mem_cons_self _ _)))
        (fun q hq => h q (List.mem_cons_of_mem _ hq))

/-
One round of the binary tree reduction.
-/

theorem mergeRound_WF (ms : List Freq) (h : ∀ T ∈ ms, WF T) :
    ∀ T ∈ mergeRound ms, WF T := by
  induction ms using mergeRound.induct with
  | case1 a b t ih =>
      intro T hT
      rcases List.mem_cons.mp hT with h1 | h1
      · rw [h1]
        exact WF_merge b a (h a (by simp)) (h b (by simp))
      · exact ih (fun q hq => h q (by simp [hq])) T h1
  | case2 a =>
      intro T hT
      exact h T hT
  | case3 =>
      intro T hT
      simp [mergeRound] at hT

theorem mergeRound_totalCount (ms : List Freq) (x : Ctx) (i : Nat)
    (h : ∀ T ∈ ms, WF T) :
    totalCount (mergeRound ms) x i = totalCount ms x i := by
  induction ms using mergeRound.induct with
  | case1 a b t ih =>
      have hr : mergeRound (a :: b :: t) = merge_grams a b :: mergeRound t := rfl
      rw [hr]
      simp only [totalCount, List.map_cons, List.sum_cons]
      rw [countF_merge b a x i (h b (by simp))]
      have := ih (fun q hq => h q (by simp [hq]))
      simp only [totalCount] at this
      omega
  | case2 a => rfl
  | case3 => rfl

theorem mergeRound_anyCtx (ms : List Freq) (x : Ctx) :
    anyCtx (mergeRound ms) x = anyCtx ms x := by
  induction ms using mergeRound.induct with
  | case1 a b t ih =>
      have hr : mergeRound (a :: b :: t) = merge_grams a b :: mergeRound t := rfl
      rw [hr]
      simp [anyCtx, hasCtx_merge, Bool.or_assoc] at ih ⊢
      rw [ih]
  | case2 a => rfl
  | case3 => rfl

theorem mergeRound_anyEntry (ms : List Freq) (x : Ctx) (i : Nat)
    (h : ∀ T ∈ ms, WF T) :
    anyEntry (mergeRound ms) x i = anyEntry ms x i := by
  induction ms using mergeRound.induct with
  | case1 a b t ih =>
      have hr : mergeRound (a :: b :: t) = merge_grams a b :: mergeRound t := rfl
      rw [hr]
      have hih := ih (fun q hq => h q (by simp [hq]))
      simp [anyEntry, hasEntry_merge b a x i (h b (by simp)).1, Bool.or_assoc] at hih ⊢
      rw [hih]
  | case2 a => rfl
  | case3 => rfl

theorem mergeRound_length (ms : List Freq) :
    (mergeRound ms).length = (ms.length + 1) / 2 := by
  induction ms using mergeRound.induct with
  | case1 a b t ih =>
      have hr : mergeRound (a :: b :: t) = merge_grams a b :: mergeRound t := rfl
      rw [hr]
      simp [ih]
      omega
  | case2 a => simp [mergeRound]
  | case3 => rfl

theorem mergeRound_ne_nil (ms : List Freq) (h : ms ≠ []) : mergeRound ms ≠ [] := by
  have hl := mergeRound_length ms
  intro hc
  rw [hc] at hl
  simp at hl
  rcases ms with _ | ⟨a, t⟩
  · exact h rfl
  · simp at hl
    omega

/-
The whole reduction loop of `merge_models_incrementally`.
-/

theorem mergeLoopAux_WF (fuel : Nat) (ms : List Freq) (h : ∀ T ∈ ms, WF T) :
    ∀ T ∈ mergeLoopAux fuel ms, WF T := by
  induction fuel generalizing ms with
  | zero => exact h
  | succ fuel ih =>
      by_cases hl : ms.length ≤ 1
      · simpa [mergeLoopAux, hl] using h
      · simpa [mergeLoopAux, hl] using ih (mergeRound ms) (mergeRound_WF ms h)

theorem mergeLoopAux_totalCount (fuel : Nat) (ms : List Freq) (x : Ctx) (i : Nat)
    (h : ∀ T ∈ ms, WF T) :
    totalCount (mergeLoopAux fuel ms) x i = totalCount ms x i := by
  induction fuel generalizing ms with
  | zero => rfl
  | succ fuel ih =>
      by_cases hl : ms.length ≤ 1
      · simp [mergeLoopAux, hl]
      · rw [show mergeLoopAux (fuel + 1) ms = mergeLoopAux fuel (mergeRound ms) by
          simp [mergeLoopAux, hl]]
        rw [ih (mergeRound ms) (mergeRound_WF ms h), mergeRound_totalCount ms x i h]

theorem mergeLoopAux_anyCtx (fuel : Nat) (ms : List Freq) (x : Ctx) :
    anyCtx (mergeLoopAux fuel ms) x = anyCtx ms x := by
  induction fuel generalizing ms with
  | zero => rfl
  | succ fuel ih =>
      by_cases hl : ms.length ≤ 1
      · simp [mergeLoopAux, hl]
      · rw [show mergeLoopAux (fuel + 1) ms = mergeLoopAux fuel (mergeRound ms) by
          simp [mergeLoopAux, hl]]
        rw [ih (mergeRound ms), mergeRound_anyCtx ms x]

theorem mergeLoopAux_anyEntry (fuel : Nat) (ms : List Freq) (x : Ctx) (i : Nat)
    (h : ∀ T ∈ ms, WF T) :
    anyEntry (mergeLoopAux fuel ms) x i = anyEntry ms x i := by
  induction fuel generalizing ms with
  | zero => rfl
  | succ fuel ih =>
      by_cases hl : ms.length ≤ 1
      · simp [mergeLoopAux, hl]
      · rw [show mergeLoopAux (fuel + 1) ms = mergeLoopAux fuel (mergeRound ms) by
          simp [mergeLoopAux, hl]]
        rw [ih (mergeRound ms) (mergeRound_WF ms h), mergeRound_anyEntry ms x i h]

theorem mergeLoopAux_ne_nil (fuel : Nat) (ms : List Freq) (h : ms ≠ []) :
    mergeLoopAux fuel ms ≠ [] := by
  induction fuel generalizing ms with
  | zero => exact h
  | succ fuel ih =>
      by_cases hl : ms.length ≤ 1
      · simpa [mergeLoopAux, hl] using h
      · simpa [mergeLoopAux, hl] using ih (mergeRound ms) (mergeRound_ne_nil ms h)

theorem mergeLoopAux_short (fuel : Nat) (ms : List Freq)
    (h : ms.length ≤ fuel + 1) : (mergeLoopAux fuel ms).length ≤ 1 := by
  induction fuel generalizing ms with
  | zero =>
      simp [mergeLoopAux]
      omega
  | succ fuel ih =>
      by_cases hl : ms.length ≤ 1
      · simp [mergeLoopAux, hl]
      · rw [show mergeLoopAux (fuel + 1) ms = mergeLoopAux fuel (mergeRound ms) by
          simp [mergeLoopAux, hl]]
        refine ih (mergeRound ms) ?_
        rw [mergeRound_length ms]
        omega

/-
Merging into a fresh empty table: helper for the left-identity claim.
-/

theorem alookup_append_left_none {α β : Type} [DecidableEq α]
    (m1 m2 : List (α × β)) (x : α) (h : alookup m1 x = none) :
    alookup (m1 ++ m2) x = alookup m2 x := by
  induction m1 with
  | nil => rfl
  | cons p t ih =>
      obtain ⟨k0, v0⟩ := p
      by_cases hx : x = k0
      · subst hx; simp [alookup] at h
      · simp [alookup, hx] at h ⊢
        exact ih h

theorem merge_append_of_disjoint (b acc : Freq) (hb : NodupKeys b)
    (hd : ∀ p ∈ b, alookup acc p.1 = none) : merge_grams acc b = acc ++ b := by
  induction b generalizing acc with
  | nil => simp [merge_grams]
  | cons p t ih =>
      obtain ⟨k, v⟩ := p
      have hk : k ∉ t.map Prod.fst ∧ NodupKeys t := by
        unfold NodupKeys at hb ⊢
        simpa using hb
      have hstep : merge_grams acc ((k, v) :: t) = merge_grams (freqStep acc (k, v)) t := rfl
      have hnone : alookup acc k = none := hd (k, v) (List.mem_cons_self _ _)
      have hfs : freqStep acc (k, v) = acc ++ [(k, v)] := by
        simp [freqStep, hnone, aset_of_absent acc k v hnone]
      rw [hstep, hfs, ih (acc ++ [(k, v)]) hk.2 ?_]
      · simp
      · intro p hp
        rw [alookup_append_left_none acc [(k, v)] p.1 (hd p (List.mem_cons_of_mem _ hp))]
        have : p.1 ≠ k := by
          intro hc
          exact hk.1 (hc ▸ (List.mem_map.mpr ⟨p, hp, rfl⟩))
        simp [alookup, this]

theorem merge_grams_nil_left (b : Freq) (hb : NodupKeys b) :
    merge_grams emptyFreq b = b := by
  have := merge_append_of_disjoint b emptyFreq hb (fun p _ => rfl)
  simpa [emptyFreq] using this

/-
Staging-area behaviour of the merge loop of `main`.
-/

theorem mergePhase_fst (pending : List (Nat × Freq)) (acc : Freq)
    (temp : List (Nat × Freq)) :
    (mergePhase acc pending temp).1 = (pending.map Prod.snd).foldl merge_grams acc := by
  induction pending generalizing acc temp with
  | nil => rfl
  | cons p t ih =>
      obtain ⟨fid, m⟩ := p
      simp [mergePhase, ih]

theorem mergePhase_snd (pending : List (Nat × Freq)) (acc : Freq)
    (temp : List (Nat × Freq)) :
    (mergePhase acc pending temp).2
      = temp.filter (fun p => !((pending.map Prod.fst).contains p.1)) := by
  induction pending generalizing acc temp with
  | nil => simp [mergePhase]
  | cons q t ih =>
      obtain ⟨fid, m⟩ := q
      rw [show mergePhase acc ((fid, m) :: t) temp
          = mergePhase (merge_grams acc m) t (temp.filter (fun p => !(p.1 == fid))) from rfl]
      rw [ih]
      rw [List.filter_filter]
      apply List.filter_congr
      intro p _
      simp [List.contains_cons, Bool.not_or]
      rw [Bool.and_comm]

/-
String lemmas for `preprocessing`.
-/

theorem strReplaceAux_single (a b : Char) (fuel : Nat) (s : List Char)
    (h : s.length ≤ fuel) :
    strReplaceAux fuel s [a] [b] = s.map (fun c => if c = a then b else c) := by
  induction fuel generalizing s with
  | zero =>
      have hs : s = [] := List.length_eq_zero.mp (Nat.le_zero.mp h)
      simp [hs, strReplaceAux]
  | succ fuel ih =>
      rcases s with _ | ⟨c, rest⟩
      · simp [strReplaceAux]
      · have hlen : rest.length ≤ fuel := by
          simp at h
          omega
        by_cases hc : a = c
        · subst hc
          have hm : matchesHere [a] (a :: rest) = true := by simp [matchesHere]
          simp [strReplaceAux, hm, ih rest hlen]
        · have hm : matchesHere [a] (c :: rest) = false := by
            simp [matchesHere, hc]
          have hcc : ¬ c = a := fun hx => hc hx.symm
          simp [strReplaceAux, hm, ih rest hlen, hcc]

theorem strReplace_single (a b : Char) (s : List Char) :
    strReplace s [a] [b] = s.map (fun c => if c = a then b else c) := by
  unfold strReplace
  simp [List.isEmpty]
  exact strReplaceAux_single a b s.length s le_rfl

theorem preprocessing_eq_map_strip (s : List Char) :
    preprocessing s = (pyStrip s).map substNl := by
  unfold preprocessing substNl
  exact strReplace_single '\n' ' ' (pyStrip s)

theorem pySpace_newline : pySpace '\n' = true := by decide

theorem substNl_of_not_space (c : Char) (h : pySpace c = false) : substNl c = c := by
  unfold substNl
  have : ¬ c = '\n' := by
    intro hc
    subst hc
    simp [pySpace] at h
  simp [this]

theorem dropWhile_cons_fix_head (c : Char) (cs : List Char)
    (h : List.dropWhile pySpace (c :: cs) = c :: cs) : pySpace c = false := by
  by_contra hc
  have hc2 : pySpace c = true := by
    revert hc
    cases pySpace c <;> simp
  rw [List.dropWhile_cons, if_pos (by simp [hc2])] at h
  have hsub : (List.dropWhile pySpace cs).length ≤ cs.length :=
    (List.dropWhile_sublist pySpace).length_le
  have h2 := congrArg List.length h
  simp at h2
  omega

theorem dropWhile_head_false (l : List Char) (c : Char) (cs : List Char)
    (h : List.dropWhile pySpace l = c :: cs) : pySpace c = false := by
  induction l with
  | nil => simp [List.dropWhile] at h
  | cons a t ih =>
      rw [List.dropWhile_cons] at h
      by_cases ha : pySpace a = true
      · rw [if_pos (by simp [ha])] at h
        exact ih h
      · rw [if_neg (by simp at ha; simp [ha])] at h
        have : a = c := by
          injection h with h1 _
        subst this
        simp at ha
        exact ha

theorem dropWhile_map_fix (t : List Char)
    (h : List.dropWhile pySpace t = t) :
    List.dropWhile pySpace (t.map substNl) = t.map substNl := by
  cases t with
  | nil => simp
  | cons c cs =>
      have hc : pySpace c = false := dropWhile_cons_fix_head c cs h
      have hs : substNl c = c := substNl_of_not_space c hc
      rw [List.map_cons, List.dropWhile_cons, hs, if_neg (by simp [hc])]

theorem pyStrip_eq_rdropWhile (s : List Char) :
    pyStrip s = List.rdropWhile pySpace (List.dropWhile pySpace s) := rfl

theorem pyStrip_front_fix (s : List Char) :
    List.dropWhile pySpace (pyStrip s) = pyStrip s := by
  cases hc : pyStrip s with
  | nil => simp
  | cons c cs =>
      have hpre : pyStrip s <+: List.dropWhile pySpace s := by
        rw [pyStrip_eq_rdropWhile]
        exact List.rdropWhile_prefix _ _
      obtain ⟨u, hu⟩ := hpre
      rw [hc] at hu
      have hd : List.dropWhile pySpace s = c :: (cs ++ u) := by
        rw [← hu]
        rfl
      have hcf : pySpace c = false := dropWhile_head_false s c (cs ++ u) hd
      rw [List.dropWhile_cons, if_neg (by simp [hcf])]

theorem pyStrip_back_fix (s : List Char) :
    List.rdropWhile pySpace (pyStrip s) = pyStrip s := by
  rw [pyStrip_eq_rdropWhile]
  exact List.rdropWhile_idempotent _ _

theorem pyStrip_map_fix (t : List Char)
    (hf : List.dropWhile pySpace t = t)
    (hb : List.rdropWhile pySpace t = t) :
    pyStrip (t.map substNl) = t.map substNl := by
  have hback0 : List.dropWhile pySpace t.reverse = t.reverse := by
    have := congrArg List.reverse hb
    simpa [List.rdropWhile] using this
  have hfront : List.dropWhile pySpace (t.map substNl) = t.map substNl :=
    dropWhile_map_fix t hf
  have hbackmap : List.dropWhile pySpace ((t.map substNl).reverse)
      = (t.map substNl).reverse := by
    rw [← List.map_reverse]
    exact dropWhile_map_fix t.reverse hback0
  unfold pyStrip
  rw [hfront, hbackmap, List.reverse_reverse]

theorem pyStrip_preprocessing (s : List Char) :
    pyStrip (preprocessing s) = preprocessing s := by
  rw [preprocessing_eq_map_strip]
  exact pyStrip_map_fix (pyStrip s) (pyStrip_front_fix s) (pyStrip_back_fix s)

/-
Orchestration lemmas.
-/

theorem orderStep_stale (trainF : Nat → Doc → Vocab → Except PyErr Freq)
    (mode : Mode) (n : Nat) (s : RunState) :
    orderStep trainF mode n s = orderStep trainF mode n { s with temp := [] } := rfl

theorem orderStep_ok_temp (trainF : Nat → Doc → Vocab → Except PyErr Freq)
    (mode : Mode) (n : Nat) (s s1 : RunState)
    (h : orderStep trainF mode n s = (s1, none)) : s1.temp = [] := by
  unfold orderStep at h
  rcases hd : s.data with _ | docs
  · simp [hd] at h
  · rcases hv : s.vocab with _ | v
    · simp [hd, hv] at h
    · simp only [hd, hv] at h
      rcases hr : (runTasks mode trainF (shardCalls mode n docs v)).2 with _ | e
      · simp only [hr] at h
        have h1 := congrArg Prod.fst h
        simp at h1
        rw [← h1]
      · simp [hr] at h

theorem hasCtx_empty (k : Ctx) : hasCtx emptyFreq k = false := rfl

theorem hasEntry_empty (k : Ctx) (i : Nat) : hasEntry emptyFreq k i = false := rfl

theorem countF_empty (k : Ctx) (i : Nat) : countF emptyFreq k i = 0 := rfl

theorem anyCtx_singleton (g : Freq) (k : Ctx) : anyCtx [g] k = hasCtx g k := by
  simp [anyCtx]

theorem anyEntry_singleton (g : Freq) (k : Ctx) (i : Nat) :
    anyEntry [g] k i = hasEntry g k i := by
  simp [anyEntry]

theorem totalCount_singleton (g : Freq) (k : Ctx) (i : Nat) :
    totalCount [g] k i = countF g k i := by
  simp [totalCount]

/-
Claim theorems.
-/

/-- C1: the claim says the vocabulary and the preprocessed corpus stay
available and unchanged across the whole order range when
`ngram_max > ngram_min`, the per-order release freeing only shard-local
data.  The code instead executes `del vocab` and `del data` inside the
order loop (main_trainer.py lines 223-224), so the very next order finds
both names unbound and dies with a NameError: on the two-order range
`range(1, 3)` over one document, order 1 trains and persists its model,
then order 2 aborts with `vocab = none` and `data = none`. -/
theorem vocab_and_corpus_deleted_between_orders :
    mainRun trainF0 Mode.seqMode [['a']] 1 2
      = ({ vocab := none, data := none, temp := [], nextId := 1,
           saved := [(1, [([0], [(1, 1)])])] }, some PyErr.nameErr) := rfl

/-- C2: the claim says every execution mode invokes the shard trainer as a
function of the shard's text, the order `n` and the vocabulary.  The
single-CPU and joblib paths do pass the three arguments, but the dask path
dispatches `delayed(train_ngram)(text, distributed_vocab)` — only two
positional arguments for the three-parameter `train_ngram` — so every
distributed shard task raises TypeError instead of training. -/
theorem dist_dispatch_drops_order_arg :
    shardCalls Mode.distMode 3 [['a']] [['a']]
        = [[CallArg.docArg ['a'], CallArg.vocabArg [['a']]]]
    ∧ runTrainNgram trainF0 [CallArg.docArg ['a'], CallArg.vocabArg [['a']]]
        = Except.error PyErr.typeErr
    ∧ shardCalls Mode.seqMode 3 [['a']] [['a']]
        = [[CallArg.orderArg 3, CallArg.docArg ['a'], CallArg.vocabArg [['a']]]]
    ∧ shardCalls Mode.parMode 3 [['a']] [['a']]
        = [[CallArg.orderArg 3, CallArg.docArg ['a'], CallArg.vocabArg [['a']]]] :=
  ⟨rfl, rfl, rfl, rfl⟩

/-- C3: `merge_grams` combines two tables pointwise — a context is present
in the result exactly when it is present in either operand, an entry is
present exactly when it is present in either operand's map for that
context, and every count is the sum of the operands' counts, 0 where
absent; no other entries appear. -/
theorem merge_grams_spec (a b : Freq) (_ha : WF a) (hb : WF b) :
    (∀ k, hasCtx (merge_grams a b) k = (hasCtx a k || hasCtx b k))
    ∧ (∀ k i, hasEntry (merge_grams a b) k i = (hasEntry a k i || hasEntry b k i))
    ∧ (∀ k i, countF (merge_grams a b) k i = countF a k i + countF b k i) :=
  ⟨fun k => hasCtx_merge b a k,
   fun k i => hasEntry_merge b a k i hb.1,
   fun k i => countF_merge b a k i hb⟩

theorem merge_grams_spec_witness :
    WF Ta ∧ WF Tb
    ∧ ((∀ k, hasCtx (merge_grams Ta Tb) k = (hasCtx Ta k || hasCtx Tb k))
      ∧ (∀ k i, hasEntry (merge_grams Ta Tb) k i = (hasEntry Ta k i || hasEntry Tb k i))
      ∧ (∀ k i, countF (merge_grams Ta Tb) k i = countF Ta k i + countF Tb k i)) :=
  ⟨by decide, by decide, merge_grams_spec Ta Tb (by decide) (by decide)⟩

/-- C4: `merge_grams` is associative and commutative under full content
equality, so the final model does not depend on merge pairing order. -/
theorem merge_grams_assoc_comm (A B C : Freq) (hA : WF A) (hB : WF B) (hC : WF C) :
    ceq (merge_grams (merge_grams A B) C) (merge_grams A (merge_grams B C))
    ∧ ceq (merge_grams (merge_grams A B) C) (merge_grams (merge_grams B A) C) := by
  have hBC := WF_merge C B hB hC
  constructor
  · refine ⟨fun k => ?_, fun k i => ?_, fun k i => ?_⟩
    · simp [hasCtx_merge, Bool.or_assoc]
    · rw [hasEntry_merge C (merge_grams A B) k i hC.1, hasEntry_merge B A k i hB.1,
        hasEntry_merge (merge_grams B C) A k i hBC.1, hasEntry_merge C B k i hC.1,
        Bool.or_assoc]
    · rw [countF_merge C (merge_grams A B) k i hC, countF_merge B A k i hB,
        countF_merge (merge_grams B C) A k i hBC, countF_merge C B k i hC]
      omega
  · refine ⟨fun k => ?_, fun k i => ?_, fun k i => ?_⟩
    · simp [hasCtx_merge, Bool.or_comm, Bool.or_assoc, Bool.or_left_comm]
    · rw [hasEntry_merge C (merge_grams A B) k i hC.1, hasEntry_merge B A k i hB.1,
        hasEntry_merge C (merge_grams B A) k i hC.1, hasEntry_merge A B k i hA.1,
        Bool.or_comm (hasEntry A k i) (hasEntry B k i)]
    · rw [countF_merge C (merge_grams A B) k i hC, countF_merge B A k i hB,
        countF_merge C (merge_grams B A) k i hC, countF_merge A B k i hA]
      omega

theorem merge_grams_assoc_comm_witness :
    WF Ta ∧ WF Tb ∧ WF Tc
    ∧ (ceq (merge_grams (merge_grams Ta Tb) Tc) (merge_grams Ta (merge_grams Tb Tc))
      ∧ ceq (merge_grams (merge_grams Ta Tb) Tc) (merge_grams (merge_grams Tb Ta) Tc)) :=
  ⟨by decide, by decide, by decide,
   merge_grams_assoc_comm Ta Tb Tc (by decide) (by decide) (by decide)⟩

/-- C5: the binary tree reduction of `merge_models_incrementally` returns,
for every non-empty list of tables, a table content-equal to the
left-to-right linear fold of `merge_grams` starting from a fresh empty
table — which is exactly the fold `main` performs over the staged partials
(`mergePhase` computes that fold). -/
theorem merge_tree_eq_main_fold (ms : List Freq) (hne : ms ≠ [])
    (hwf : ∀ T ∈ ms, WF T) :
    (∃ r, merge_models_incrementally ms = some r
      ∧ ceq r (ms.foldl merge_grams emptyFreq))
    ∧ (∀ acc pending temp, (mergePhase acc pending temp).1
        = (pending.map Prod.snd).foldl merge_grams acc) := by
  constructor
  · have hnil : mergeLoopAux ms.length ms ≠ [] :=
      mergeLoopAux_ne_nil ms.length ms hne
    have hshort : (mergeLoopAux ms.length ms).length ≤ 1 :=
      mergeLoopAux_short ms.length ms (by omega)
    obtain ⟨r, hr⟩ : ∃ r, mergeLoopAux ms.length ms = [r] := by
      rcases hl : mergeLoopAux ms.length ms with _ | ⟨r, _ | ⟨r2, t⟩⟩
      · exact absurd hl hnil
      · exact ⟨r, rfl⟩
      · rw [hl] at hshort
        simp at hshort
    refine ⟨r, ?_, ⟨fun k => ?_, fun k i => ?_, fun k i => ?_⟩⟩
    · unfold merge_models_incrementally
      rw [hr]
      rfl
    · have h1 := mergeLoopAux_anyCtx ms.length ms k
      rw [hr, anyCtx_singleton] at h1
      rw [hasCtx_foldl ms emptyFreq k, hasCtx_empty, Bool.false_or]
      exact h1
    · have h1 := mergeLoopAux_anyEntry ms.length ms k i hwf
      rw [hr, anyEntry_singleton] at h1
      rw [hasEntry_foldl ms emptyFreq k i hwf, hasEntry_empty, Bool.false_or]
      exact h1
    · have h1 := mergeLoopAux_totalCount ms.length ms k i hwf
      rw [hr, totalCount_singleton] at h1
      rw [countF_foldl ms emptyFreq k i hwf, countF_empty, Nat.zero_add]
      exact h1
  · exact fun acc pending temp => mergePhase_fst pending acc temp

theorem merge_tree_eq_main_fold_witness :
    ([Ta, Tb] ≠ [] ∧ (∀ T ∈ [Ta, Tb], WF T))
    ∧ ((∃ r, merge_models_incrementally [Ta, Tb] = some r
        ∧ ceq r ([Ta, Tb].foldl merge_grams emptyFreq))
      ∧ (∀ acc pending temp, (mergePhase acc pending temp).1
          = (pending.map Prod.snd).foldl merge_grams acc)) :=
  ⟨⟨by decide, by decide⟩, merge_tree_eq_main_fold [Ta, Tb] (by decide) (by decide)⟩

/-- C6: the claim says a single failed shard task aborts the order in every
mode, never persisting a partial or degraded final model.  On the dask
path the futures are never gathered, so failures are invisible to the
orchestrator: with one document in distributed mode the only shard task
fails (TypeError), yet the run completes without error and persists an
empty final model for order 1. -/
theorem dist_failure_persists_model :
    taskResults trainF0 (shardCalls Mode.distMode 1 [['a']] [['a']])
        = [Except.error PyErr.typeErr]
    ∧ mainRun trainF0 Mode.distMode [['a']] 1 1
        = ({ vocab := none, data := none, temp := [], nextId := 0,
             saved := [(1, emptyFreq)] }, none) :=
  ⟨rfl, rfl⟩

/-- C7: each staged partial is deleted from staging once folded into the
merge, so merging the whole staged set leaves staging empty; stale staging
artifacts are cleared at the start of each order (the step behaves as if
staging started empty); and every order that completes without error ends
with an empty staging area, so no partial artifacts survive into the next
order. -/
theorem staging_lifecycle :
    (∀ acc pending temp, (mergePhase acc pending temp).2
        = temp.filter (fun p => !((pending.map Prod.fst).contains p.1)))
    ∧ (∀ acc temp, (mergePhase acc temp temp).2 = [])
    ∧ (∀ trainF mode n s, orderStep trainF mode n s
        = orderStep trainF mode n { s with temp := [] })
    ∧ (∀ trainF mode n s s1, orderStep trainF mode n s = (s1, none) → s1.temp = []) := by
  refine ⟨fun acc pending temp => mergePhase_snd pending acc temp, ?_,
    orderStep_stale, orderStep_ok_temp⟩
  intro acc temp
  rw [mergePhase_snd]
  rw [List.filter_eq_nil_iff]
  intro p hp
  have hm : p.1 ∈ temp.map Prod.fst := List.mem_map.mpr ⟨p, hp, rfl⟩
  simp [List.contains, hm]

theorem staging_lifecycle_witness :
    orderStep trainF0 Mode.seqMode 1 stC7a = (stC7b, none) ∧ stC7b.temp = [] :=
  ⟨rfl, staging_lifecycle.2.2.2 trainF0 Mode.seqMode 1 stC7a stC7b rfl⟩

/-- C8: `merge_grams` is not idempotent: merging a table with itself
doubles every count, so whenever some count is non-zero the result is not
content-equal to the operand. -/
theorem merge_grams_not_idempotent (T : Freq) (hT : WF T)
    (hnz : ∃ k i, countF T k i ≠ 0) :
    (∀ k i, countF (merge_grams T T) k i = 2 * countF T k i)
    ∧ ¬ ceq (merge_grams T T) T := by
  have hdouble : ∀ k i, countF (merge_grams T T) k i = 2 * countF T k i := by
    intro k i
    rw [countF_merge T T k i hT]
    omega
  refine ⟨hdouble, ?_⟩
  rintro ⟨-, -, hcnt⟩
  obtain ⟨k, i, hk⟩ := hnz
  have h := hcnt k i
  rw [hdouble k i] at h
  omega

theorem merge_grams_not_idempotent_witness :
    WF Ta ∧ (∃ k i, countF Ta k i ≠ 0)
    ∧ ((∀ k i, countF (merge_grams Ta Ta) k i = 2 * countF Ta k i)
      ∧ ¬ ceq (merge_grams Ta Ta) Ta) :=
  ⟨by decide, ⟨[0], 1, by decide⟩,
   merge_grams_not_idempotent Ta (by decide) ⟨[0], 1, by decide⟩⟩

/-- C9: `preprocessing` returns its input with leading and trailing
whitespace stripped and every newline replaced by a single space; internal
whitespace runs are preserved, not collapsed (the output is exactly a
character-for-character substitution of the stripped input, of equal
length — the computed join of the split tokens is discarded); and `main`
applies it to every document before building the vocabulary and before any
training pass. -/
theorem preprocessing_contract :
    (∀ s : List Char,
        preprocessing s = (pyStrip s).map substNl
        ∧ pyStrip (preprocessing s) = preprocessing s
        ∧ (preprocessing s).length = (pyStrip s).length)
    ∧ (∀ raw : List Doc,
        (mainPrepare raw).data = some (raw.map preprocessing)
        ∧ (mainPrepare raw).vocab = some (buildVocab (raw.map preprocessing))) := by
  constructor
  · intro s
    refine ⟨preprocessing_eq_map_strip s, pyStrip_preprocessing s, ?_⟩
    rw [preprocessing_eq_map_strip s, List.length_map]
  · intro raw
    exact ⟨rfl, rfl⟩

/-- C10: a freshly constructed empty table is a left identity for
`merge_grams` — folding the staged partials into `ngram.Ngram()` as `main`
does starts from a neutral element.  The result is in fact equal to the
right operand, hence content-equal. -/
theorem merge_grams_empty_left_identity (B : Freq) (hB : WF B) :
    merge_grams emptyFreq B = B ∧ ceq (merge_grams emptyFreq B) B := by
  have h := merge_grams_nil_left B hB.1
  refine ⟨h, ?_⟩
  rw [h]
  exact ⟨fun k => rfl, fun k i => rfl, fun k i => rfl⟩

theorem merge_grams_empty_left_identity_witness :
    WF Tb ∧ (merge_grams emptyFreq Tb = Tb ∧ ceq (merge_grams emptyFreq Tb) Tb) :=
  ⟨by decide, merge_grams_empty_left_identity Tb (by decide)⟩

end NgramTrainer
